import Mathlib

/-
Verification of the TOML parser adapter of the config_file library
(src/config_file/parsers/toml_parser.py) against its specification.

The parsed content is a generic tree of mappings (Python dicts: string keys,
insertion order preserved, keys unique), sequences (Python lists) and scalars.
Python exceptions raised by the adapter are modelled by an explicit error type,
and each adapter method becomes a pure function that returns the method's
result (or the raised exception) together with the post-state of the tree.
-/

/-- The generic parsed-content tree. Python dicts are modelled as ordered
association lists, Python lists as `List Node`. A TOML float is carried as its
literal text, since no claim computes with float values. -/
inductive Node where
  | str : String → Node
  | int : Int → Node
  | bool : Bool → Node
  | float : String → Node
  | arr : List Node → Node
  | table : List (String × Node) → Node

/-- A scalar is a leaf: neither a mapping nor a sequence. -/
def Node.isScalar : Node → Bool
  | .arr _ => false
  | .table _ => false
  | _ => true

/-- Whether the node is a mapping. -/
def Node.isTable : Node → Bool
  | .table _ => true
  | _ => false

/-- The Python exceptions the adapter's methods can raise:
`ParsingError` (the library's own class), and the built-in
`KeyError` and `TypeError`, each carrying the offending key or message. -/
inductive PyErr where
  | parsingError : String → PyErr
  | keyError : String → PyErr
  | typeError : String → PyErr
deriving DecidableEq, Repr

/-- Python `container[k]` for a string key `k`: a dict yields the value at `k`
or raises `KeyError`; a list or a scalar raises `TypeError` on a string index. -/
def Node.index (n : Node) (k : String) : Except PyErr Node :=
  match n with
  | .table kvs =>
    match kvs.lookup k with
    | some v => .ok v
    | none => .error (.keyError k)
  | _ => .error (.typeError k)

/-- Modelled from the spec: `split_on_dot` (config_file/utils.py is not in the
source slice) splits a key on `.` while respecting backslash-escaped dots. -/
def splitOnDotAux : List Char → String → List String
  | [], acc => [acc]
  | '\\' :: '.' :: rest, acc => splitOnDotAux rest (acc.push '.')
  | '.' :: rest, acc => acc :: splitOnDotAux rest ""
  | c :: rest, acc => splitOnDotAux rest (acc.push c)

/-- Modelled from the spec: split a dotted key into its path segments. -/
def split_on_dot (key : String) : List String :=
  splitOnDotAux key.data ""

/-- Plain descent along a list of segments: `ref = ref[seg]` repeatedly,
propagating the raw Python exception of the failing step. This is the
traversal `set` and `delete` perform over the intermediate segments. -/
def descend (n : Node) (segs : List String) : Except PyErr Node :=
  match segs with
  | [] => .ok n
  | s :: rest =>
    match n.index s with
    | .ok v => descend v rest
    | .error e => .error e

/-- The descent of `TomlParser.get` for a dotted key: the loop body
`result = result[key]` runs under `try ... except TypeError`, which converts a
`TypeError` at segment `s` into
`ParsingError(f"Cannot get {key} because {key_for_error} is not subscriptable.")`,
where at that moment both `key` (the loop variable) and `key_for_error` equal
`s`. A `KeyError` is not caught and propagates unchanged. -/
def getPath (n : Node) (segs : List String) : Except PyErr Node :=
  match segs with
  | [] => .ok n
  | s :: rest =>
    match n.index s with
    | .ok v => getPath v rest
    | .error (.typeError _) =>
      .error (.parsingError
        ("Cannot get " ++ s ++ " because " ++ s ++ " is not subscriptable."))
    | .error e => .error e

mutual

/-- Modelled from the spec: `lookup_all` / `nested_lookup`
(config_file/nested_lookup.py is not in the source slice) recursively visits
every mapping and sequence node and, for each mapping entry whose key equals
the leaf key, collects its value; order is depth-first pre-order, mapping
insertion order, then sequence index order. -/
def nested_lookup (k : String) : Node → List Node
  | .table kvs => nestedLookupKVs k kvs
  | .arr xs => nestedLookupArr k xs
  | _ => []

/-- Traversal of `nested_lookup` over the entries of one mapping. -/
def nestedLookupKVs (k : String) : List (String × Node) → List Node
  | [] => []
  | (key, v) :: rest =>
    (if key = k then [v] else []) ++ nested_lookup k v ++ nestedLookupKVs k rest

/-- Traversal of `nested_lookup` over the elements of one sequence. -/
def nestedLookupArr (k : String) : List Node → List Node
  | [] => []
  | x :: rest => nested_lookup k x ++ nestedLookupArr k rest

end

/-- Modelled from the spec: `count_occurrences` / `get_occurrence_of_key`
(config_file/nested_lookup.py is not in the source slice) performs the same
traversal as `nested_lookup` and returns the number of matches, so it equals
the length of the collected list. -/
def get_occurrence_of_key (tree : Node) (k : String) : Nat :=
  (nested_lookup k tree).length

/-- ASCII lower-casing of one character, for the case-insensitive
boolean comparison of Value Coercion. -/
def lowerChar (c : Char) : Char :=
  if 'A' <= c && c <= 'Z' then Char.ofNat (c.toNat + 32) else c

/-- ASCII lower-casing of a string. -/
def strLower (s : String) : String :=
  String.mk (s.data.map lowerChar)

/-- Whether a string matches the integer pattern: an optional minus sign
followed by at least one decimal digit. -/
def isIntString (s : String) : Bool :=
  match s.data with
  | [] => false
  | '-' :: ds => !ds.isEmpty && ds.all Char.isDigit
  | ds => ds.all Char.isDigit

/-- The numeric value of a list of decimal digits. -/
def digitsToNat (ds : List Char) : Nat :=
  ds.foldl (fun acc c => acc * 10 + (c.toNat - 48)) 0

/-- The integer denoted by a string matching the integer pattern. -/
def strToInt (s : String) : Int :=
  match s.data with
  | '-' :: ds => -(digitsToNat ds : Int)
  | ds => (digitsToNat ds : Int)

/-- Whether a string matches a simple decimal float pattern:
an optional minus sign, then digits, one dot, and digits. -/
def isFloatString (s : String) : Bool :=
  let t := if s.startsWith "-" then s.drop 1 else s
  match t.splitOn "." with
  | [a, b] =>
    !a.isEmpty && !b.isEmpty && a.all Char.isDigit && b.all Char.isDigit
  | _ => false

/-- Modelled from the spec: Value Coercion of one raw string
(config_file/parsers/__init__.py is not in the source slice).
Case-insensitive "true"/"false" become booleans, an integer pattern becomes an
integer, a float pattern a float, a comma-separated string a sequence of
recursively coerced trimmed elements, anything else stays a string. The
recursion over comma-split pieces is paid for with a fuel argument; the fuel
`raw.length + 1` suffices because every piece is shorter than the split
string, so the fuel never runs out on the inputs the claims use. -/
def coerceFuel : Nat → String → Node
  | 0, raw => .str raw
  | n + 1, raw =>
    if strLower raw = "true" then .bool true
    else if strLower raw = "false" then .bool false
    else if isIntString raw then .int (strToInt raw)
    else if isFloatString raw then .float raw
    else if raw.data.contains ',' then
      .arr ((raw.splitOn ",").map (fun piece => coerceFuel n piece.trim))
    else .str raw

/-- Modelled from the spec: `coerce(raw)` with enough fuel for its input. -/
def coerce (raw : String) : Node :=
  coerceFuel (raw.length + 1) raw

mutual

/-- Modelled from the spec: `parse_value`
(config_file/parsers/__init__.py is not in the source slice) applies Value
Coercion to a looked-up result, element-wise if the result is a sequence;
non-string scalars and mappings are returned unchanged. -/
def parse_value : Node → Node
  | .str raw => coerce raw
  | .arr xs => .arr (parseValueList xs)
  | n => n

/-- Element-wise `parse_value` over a sequence result. -/
def parseValueList : List Node → List Node
  | [] => []
  | x :: rest => parse_value x :: parseValueList rest

end

/-- Python `d[k] = v` on a dict modelled as an ordered association list:
an existing key keeps its position and gets the new value, a new key is
appended at the end. -/
def setEntry : List (String × Node) → String → Node → List (String × Node)
  | [], k, v => [(k, v)]
  | (k', v') :: rest, k, v =>
    if k' = k then (k, v) :: rest else (k', v') :: setEntry rest k v

/-- Python `del d[k]` on a dict modelled as an ordered association list:
`none` when the key is absent (Python raises `KeyError`). -/
def delEntry : List (String × Node) → String → Option (List (String × Node))
  | [], _ => none
  | (k', v') :: rest, k =>
    if k' = k then some rest else (delEntry rest k).map (fun l => (k', v') :: l)

/-- Python `ref[k] = value` on a node: succeeds exactly on a dict (creating
the key when absent); a list or scalar raises `TypeError` on a string key. -/
def Node.assign (n : Node) (k : String) (v : Node) : Except PyErr Node :=
  match n with
  | .table kvs => .ok (.table (setEntry kvs k v))
  | _ => .error (.typeError k)

/-- Python `del ref[k]` on a node: on a dict it removes the entry or raises
`KeyError`; a list or scalar raises `TypeError` on a string key. -/
def Node.delAt (n : Node) (k : String) : Except PyErr Node :=
  match n with
  | .table kvs =>
    match delEntry kvs k with
    | some kvs' => .ok (.table kvs')
    | none => .error (.keyError k)
  | _ => .error (.typeError k)

/-- Rebuilds a node after its child at key `k` was mutated through the alias
`ref`. Only ever applied when `Node.index n k` succeeded, so `n` is a dict
containing `k`; other shapes are returned unchanged. -/
def Node.writeBack (n : Node) (k : String) (v : Node) : Node :=
  match n with
  | .table kvs => .table (setEntry kvs k v)
  | other => other

/-- The dotted-path loop of `TomlParser.set`: walk `ref = ref[key]` over every
segment but the last, then `ref[key] = value` at the last segment. Since `ref`
aliases into the tree, the final assignment is reflected along the walked path
by `Node.writeBack`. An empty segment list runs the loop zero times and
mutates nothing. -/
def setPath (n : Node) (segs : List String) (v : Node) : Except PyErr Node :=
  match segs with
  | [] => .ok n
  | [s] => n.assign s v
  | s :: rest =>
    match n.index s with
    | .ok child =>
      match setPath child rest v with
      | .ok child' => .ok (n.writeBack s child')
      | .error e => .error e
    | .error e => .error e

/-- The dotted-path loop of `TomlParser.delete`: walk `ref = ref[key]` over
every segment but the last, then `del ref[key]` at the last segment. -/
def delPath (n : Node) (segs : List String) : Except PyErr Node :=
  match segs with
  | [] => .ok n
  | [s] => n.delAt s
  | s :: rest =>
    match n.index s with
    | .ok child =>
      match delPath child rest with
      | .ok child' => .ok (n.writeBack s child')
      | .error e => .error e
    | .error e => .error e

mutual

/-- Modelled from the spec: `update_all` / `nested_update`
(config_file/nested_lookup.py is not in the source slice): the traversal of
`nested_lookup`, replacing the value of every mapping entry whose key matches;
non-matching values are descended into. -/
def nested_update (k : String) (v : Node) : Node → Node
  | .table kvs => .table (nestedUpdateKVs k v kvs)
  | .arr xs => .arr (nestedUpdateArr k v xs)
  | n => n

/-- Traversal of `nested_update` over the entries of one mapping. -/
def nestedUpdateKVs (k : String) (v : Node) :
    List (String × Node) → List (String × Node)
  | [] => []
  | (key, val) :: rest =>
    if key = k then (key, v) :: nestedUpdateKVs k v rest
    else (key, nested_update k v val) :: nestedUpdateKVs k v rest

/-- Traversal of `nested_update` over the elements of one sequence. -/
def nestedUpdateArr (k : String) (v : Node) : List Node → List Node
  | [] => []
  | x :: rest => nested_update k v x :: nestedUpdateArr k v rest

end

mutual

/-- Modelled from the spec: `delete_all` / `nested_delete`
(config_file/nested_lookup.py is not in the source slice): the traversal of
`nested_lookup`, removing every mapping entry whose key matches. -/
def nested_delete (k : String) : Node → Node
  | .table kvs => .table (nestedDeleteKVs k kvs)
  | .arr xs => .arr (nestedDeleteArr k xs)
  | n => n

/-- Traversal of `nested_delete` over the entries of one mapping. -/
def nestedDeleteKVs (k : String) : List (String × Node) → List (String × Node)
  | [] => []
  | (key, val) :: rest =>
    if key = k then nestedDeleteKVs k rest
    else (key, nested_delete k val) :: nestedDeleteKVs k rest

/-- Traversal of `nested_delete` over the elements of one sequence. -/
def nestedDeleteArr (k : String) : List Node → List Node
  | [] => []
  | x :: rest => nested_delete k x :: nestedDeleteArr k rest

end

/-- Source `TomlParser.get(key, parse_types, all)`: `all=True` collects every
occurrence with `nested_lookup` (a Python list, modelled as a sequence node);
a key containing the delimiter descends via `split_on_dot` with the
`TypeError`-to-`ParsingError` conversion of `getPath`; otherwise one direct
lookup `self.parsed_content[key]`. When `parse_types` is set, `parse_value`
is applied to a successful result. -/
def TomlParser.get (tree : Node) (key : String)
    (parse_types : Bool) (all : Bool) : Except PyErr Node :=
  let r : Except PyErr Node :=
    if all then .ok (.arr (nested_lookup key tree))
    else if key.data.contains '.' then getPath tree (split_on_dot key)
    else tree.index key
  match r with
  | .ok v => .ok (if parse_types then parse_value v else v)
  | .error e => .error e

/-- Source `TomlParser.set(key, value, all)`. In the dotted branch the loop's only
tree mutation is the `ref[key] = value` at the last segment, so when the
traversal raises, the post-state is the unchanged input tree. Returns `True`
on success. -/
def TomlParser.set (tree : Node) (key : String) (value : Node)
    (all : Bool) : Except PyErr Bool × Node :=
  if all then (.ok true, nested_update key value tree)
  else if key.data.contains '.' then
    match setPath tree (split_on_dot key) value with
    | .ok t' => (.ok true, t')
    | .error e => (.error e, tree)
  else
    match tree.assign key value with
    | .ok t' => (.ok true, t')
    | .error e => (.error e, tree)

/-- Source `TomlParser.delete(key, all)`. As in `set`, the dotted loop's only tree
mutation is the `del ref[key]` at the last segment, so a raising traversal
leaves the tree unchanged. Returns `True` on success. -/
def TomlParser.delete (tree : Node) (key : String)
    (all : Bool) : Except PyErr Bool × Node :=
  if all then (.ok true, nested_delete key tree)
  else if key.data.contains '.' then
    match delPath tree (split_on_dot key) with
    | .ok t' => (.ok true, t')
    | .error e => (.error e, tree)
  else
    match tree.delAt key with
    | .ok t' => (.ok true, t')
    | .error e => (.error e, tree)

/-- Source `TomlParser.has(search_key)`: `get_occurrence_of_key(...) > 0`. -/
def TomlParser.has (tree : Node) (search_key : String) : Bool :=
  decide (0 < get_occurrence_of_key tree search_key)

/-- The error raised by `toml.loads` on malformed text
(`toml.TomlDecodeError`), carrying its message. -/
structure TomlDecodeError where
  msg : String

/-- Source `TomlParser.parse(file_contents)`: `toml.loads` inside a `try` that
converts `toml.TomlDecodeError` into `ParsingError`. The external library
call is embedded by its contract — its outcome, a decoded tree or a decode
error, is the argument — and `parse` performs the conversion the `except`
clause does. -/
def TomlParser.parse (loaded : Except TomlDecodeError Node) :
    Except PyErr Node :=
  match loaded with
  | .ok tree => .ok tree
  | .error e => .error (.parsingError e.msg)

/-- Four spaces of indentation per level, as `json.dumps(..., indent=4)`. -/
def indentStr (lvl : Nat) : String :=
  String.mk (List.replicate (4 * lvl) ' ')

/-- String escaping of `json.dumps` restricted to quote and backslash;
the inputs in this development contain no other characters needing escapes. -/
def jsonEscape (s : String) : String :=
  s.data.foldl
    (fun acc c =>
      if c = '"' then acc ++ "\\\""
      else if c = '\\' then acc ++ "\\\\"
      else acc.push c) ""

mutual

/-- Python `json.dumps(node, indent=4)` at a given indentation level:
dicts and lists open a bracket, put each member on its own line one level
deeper, and close the bracket at the current level; empty containers print
on one line. -/
def jsonDumps : Node → Nat → String
  | .str s, _ => "\"" ++ jsonEscape s ++ "\""
  | .int i, _ => toString i
  | .bool b, _ => if b then "true" else "false"
  | .float f, _ => f
  | .arr [], _ => "[]"
  | .arr (x :: xs), lvl =>
    "[\n" ++ jsonDumpsArr (x :: xs) (lvl + 1) ++ "\n" ++ indentStr lvl ++ "]"
  | .table [], _ => "\x7b\x7d"
  | .table (kv :: kvs), lvl =>
    "\x7b\n" ++ jsonDumpsKVs (kv :: kvs) (lvl + 1) ++ "\n"
      ++ indentStr lvl ++ "\x7d"

/-- The comma-and-newline separated members of a JSON object. -/
def jsonDumpsKVs : List (String × Node) → Nat → String
  | [], _ => ""
  | [(k, v)], lvl =>
    indentStr lvl ++ "\"" ++ jsonEscape k ++ "\": " ++ jsonDumps v lvl
  | (k, v) :: kv :: kvs, lvl =>
    indentStr lvl ++ "\"" ++ jsonEscape k ++ "\": " ++ jsonDumps v lvl
      ++ ",\n" ++ jsonDumpsKVs (kv :: kvs) lvl

/-- The comma-and-newline separated elements of a JSON array. -/
def jsonDumpsArr : List Node → Nat → String
  | [], _ => ""
  | [x], lvl => indentStr lvl ++ jsonDumps x lvl
  | x :: y :: xs, lvl =>
    indentStr lvl ++ jsonDumps x lvl ++ ",\n" ++ jsonDumpsArr (y :: xs) lvl

end

/-- Source `TomlParser.stringify`, embedded as the expression its body denotes:
`json.dumps(self.parsed_content, indent=4)`. Note that toml_parser.py never
imports `json`, so in Python every call to this method raises `NameError`;
with the standard `json` module in scope the expression produces 4-space
indented JSON text, in either case not the TOML text the tree was parsed
from. -/
def TomlParser.stringify (tree : Node) : String :=
  jsonDumps tree 0

theorem lookup_setEntry_self (kvs : List (String × Node)) (k : String) (v : Node) :
    (setEntry kvs k v).lookup k = some v := by
  induction kvs with
  | nil => simp [setEntry, List.lookup]
  | cons kv rest ih =>
    obtain ⟨k', v'⟩ := kv
    by_cases h : k' = k
    · simp [setEntry, h, List.lookup]
    · simp only [setEntry, if_neg h, List.lookup]
      have : (k == k') = false := by
        simp [beq_iff_eq]
        exact fun hk => h hk.symm
      simp [this, ih]

theorem lookup_setEntry_ne (kvs : List (String × Node)) (k k' : String) (v : Node)
    (h : k' ≠ k) : (setEntry kvs k v).lookup k' = kvs.lookup k' := by
  have hb : (k' == k) = false := beq_eq_false_iff_ne.mpr h
  induction kvs with
  | nil => simp [setEntry, List.lookup, hb]
  | cons kv rest ih =>
    obtain ⟨a, b⟩ := kv
    by_cases ha : a = k
    · subst ha
      simp [setEntry, List.lookup, hb]
    · simp [setEntry, if_neg ha, List.lookup, ih]

theorem getPath_descend_prefix (pre : List String) :
    ∀ (n m : Node) (l : List String), descend n pre = .ok m →
      getPath n (pre ++ l) = getPath m l := by
  induction pre with
  | nil =>
    intro n m l h
    simp only [descend] at h
    cases h
    rfl
  | cons s rest ih =>
    intro n m l h
    simp only [descend] at h
    cases hi : n.index s with
    | ok c =>
      rw [hi] at h
      simpa [getPath, hi] using ih c m l h
    | error e => rw [hi] at h; cases h

theorem descend_prefix (pre : List String) :
    ∀ (n m : Node) (l : List String), descend n pre = .ok m →
      descend n (pre ++ l) = descend m l := by
  induction pre with
  | nil =>
    intro n m l h
    simp only [descend] at h
    cases h
    rfl
  | cons s rest ih =>
    intro n m l h
    simp only [descend] at h
    cases hi : n.index s with
    | ok c =>
      rw [hi] at h
      simpa [descend, hi] using ih c m l h
    | error e => rw [hi] at h; cases h

theorem getPath_scalar_head (m : Node) (s : String) (rest : List String)
    (h : m.isScalar = true) :
    getPath m (s :: rest) =
      .error (.parsingError
        ("Cannot get " ++ s ++ " because " ++ s ++ " is not subscriptable.")) := by
  cases m <;> simp_all [getPath, Node.index, Node.isScalar]

theorem getPath_table_missing_head (kvs : List (String × Node)) (s : String)
    (rest : List String) (h : kvs.lookup s = none) :
    getPath (.table kvs) (s :: rest) = .error (.keyError s) := by
  simp [getPath, Node.index, h]

theorem index_ok_iff (n : Node) (s : String) (c : Node) :
    n.index s = .ok c ↔ ∃ kvs, n = .table kvs ∧ kvs.lookup s = some c := by
  constructor
  · intro h
    cases n with
    | table kvs =>
      cases hl : kvs.lookup s with
      | some v0 =>
        simp only [Node.index, hl] at h
        cases h
        exact ⟨kvs, rfl, hl⟩
      | none => simp [Node.index, hl] at h
    | str a => simp [Node.index] at h
    | int a => simp [Node.index] at h
    | bool a => simp [Node.index] at h
    | float a => simp [Node.index] at h
    | arr a => simp [Node.index] at h
  · rintro ⟨kvs, rfl, hl⟩
    simp [Node.index, hl]

theorem setPath_append_ok (v : Node) (last : String) (pre : List String) :
    ∀ (n : Node) (kvs : List (String × Node)),
      descend n pre = .ok (.table kvs) →
      ∃ u, setPath n (pre ++ [last]) v = .ok u ∧
        descend u (pre ++ [last]) = .ok v := by
  induction pre with
  | nil =>
    intro n kvs h
    simp only [descend] at h
    cases h
    refine ⟨.table (setEntry kvs last v), by simp [setPath, Node.assign], ?_⟩
    simp [descend, Node.index, lookup_setEntry_self]
  | cons s rest ih =>
    intro n kvs h
    simp only [descend] at h
    cases hi : n.index s with
    | ok c =>
      rw [hi] at h
      obtain ⟨u', hu', hd'⟩ := ih c kvs h
      obtain ⟨nkvs, rfl, hlk⟩ := (index_ok_iff n s c).mp hi
      refine ⟨.table (setEntry nkvs s u'), ?_, ?_⟩
      · cases hr : rest ++ [last] with
        | nil => exact absurd hr (by simp)
        | cons a as =>
          rw [List.cons_append, hr]
          rw [hr] at hu'
          simp [setPath, hi, hu', Node.writeBack]
      · simp only [List.cons_append, descend, Node.index, lookup_setEntry_self]
        exact hd'
    | error e => rw [hi] at h; cases h

theorem setPath_append_err (v : Node) (last : String) (pre : List String) :
    ∀ (n : Node) (e : PyErr), descend n pre = .error e →
      setPath n (pre ++ [last]) v = .error e := by
  induction pre with
  | nil => intro n e h; simp [descend] at h
  | cons s rest ih =>
    intro n e h
    simp only [descend] at h
    cases hr : rest ++ [last] with
    | nil => exact absurd hr (by simp)
    | cons a as =>
      rw [List.cons_append, hr]
      cases hi : n.index s with
      | ok c =>
        rw [hi] at h
        have h2 := ih c e h
        rw [hr] at h2
        simp [setPath, hi, h2]
      | error e' =>
        rw [hi] at h
        cases h
        simp [setPath, hi]

theorem delPath_append_ok (s : String) (pre : List String) :
    ∀ (n : Node) (kvs kvs' : List (String × Node)),
      descend n pre = .ok (.table kvs) →
      delEntry kvs s = some kvs' →
      ∃ u, delPath n (pre ++ [s]) = .ok u ∧
        descend u pre = .ok (.table kvs') := by
  induction pre with
  | nil =>
    intro n kvs kvs' h hdel
    simp only [descend] at h
    cases h
    exact ⟨.table kvs', by simp [delPath, Node.delAt, hdel], by simp [descend]⟩
  | cons seg rest ih =>
    intro n kvs kvs' h hdel
    simp only [descend] at h
    cases hi : n.index seg with
    | ok c =>
      rw [hi] at h
      obtain ⟨u', hu', hd'⟩ := ih c kvs kvs' h hdel
      obtain ⟨nkvs, rfl, hlk⟩ := (index_ok_iff n seg c).mp hi
      refine ⟨.table (setEntry nkvs seg u'), ?_, ?_⟩
      · cases hr : rest ++ [s] with
        | nil => exact absurd hr (by simp)
        | cons a as =>
          rw [List.cons_append, hr]
          rw [hr] at hu'
          simp [delPath, hi, hu', Node.writeBack]
      · simp only [descend, Node.index, lookup_setEntry_self]
        exact hd'
    | error e => rw [hi] at h; cases h

theorem delPath_comp_err (pre : List String) :
    ∀ (n m : Node) (l : List String) (e : PyErr), l ≠ [] →
      descend n pre = .ok m → delPath m l = .error e →
      delPath n (pre ++ l) = .error e := by
  induction pre with
  | nil =>
    intro n m l e _ h hl
    simp only [descend] at h
    cases h
    exact hl
  | cons seg rest ih =>
    intro n m l e hne h hl
    simp only [descend] at h
    cases hi : n.index seg with
    | ok c =>
      rw [hi] at h
      have h2 := ih c m l e hne h hl
      cases hr : rest ++ l with
      | nil => exact absurd (List.append_eq_nil.mp hr).2 hne
      | cons a as =>
        rw [List.cons_append, hr]
        rw [hr] at h2
        simp [delPath, hi, h2]
    | error e' => rw [hi] at h; cases h

theorem delPath_pre_err (pre : List String) :
    ∀ (n : Node) (l : List String) (e : PyErr), l ≠ [] →
      descend n pre = .error e → delPath n (pre ++ l) = .error e := by
  induction pre with
  | nil => intro n l e _ h; simp [descend] at h
  | cons seg rest ih =>
    intro n l e hne h
    simp only [descend] at h
    cases hr : rest ++ l with
    | nil => exact absurd (List.append_eq_nil.mp hr).2 hne
    | cons a as =>
      rw [List.cons_append, hr]
      cases hi : n.index seg with
      | ok c =>
        rw [hi] at h
        have h2 := ih c l e hne h
        rw [hr] at h2
        simp [delPath, hi, h2]
      | error e' =>
        rw [hi] at h
        cases h
        simp [delPath, hi]

theorem delPath_scalar_head (m : Node) (s : String) (rest : List String)
    (h : m.isScalar = true) :
    delPath m (s :: rest) = .error (.typeError s) := by
  cases rest <;> cases m <;>
    simp_all [delPath, Node.delAt, Node.index, Node.isScalar]

theorem delPath_table_missing_mid (kvs : List (String × Node)) (s : String)
    (rest : List String) (h : kvs.lookup s = none) (hne : rest ≠ []) :
    delPath (.table kvs) (s :: rest) = .error (.keyError s) := by
  cases rest with
  | nil => exact absurd rfl hne
  | cons a as => simp [delPath, Node.index, h]

theorem lookup_eq_none_of_not_mem (kvs : List (String × Node)) (k : String)
    (h : k ∉ kvs.map Prod.fst) : kvs.lookup k = none := by
  induction kvs with
  | nil => rfl
  | cons kv rest ih =>
    obtain ⟨a, b⟩ := kv
    simp only [List.map_cons, List.mem_cons] at h
    push_neg at h
    have hb : (k == a) = false := beq_eq_false_iff_ne.mpr h.1
    simp [List.lookup, hb, ih h.2]

theorem delEntry_lookup_none (k : String) (kvs : List (String × Node)) :
    ∀ kvs', (kvs.map Prod.fst).Nodup → delEntry kvs k = some kvs' →
      kvs'.lookup k = none := by
  induction kvs with
  | nil => intro kvs' _ h; simp [delEntry] at h
  | cons kv rest ih =>
    obtain ⟨a, b⟩ := kv
    intro kvs' hnd h
    simp only [List.map_cons, List.nodup_cons] at hnd
    by_cases ha : a = k
    · subst ha
      simp only [delEntry, if_pos rfl] at h
      cases h
      exact lookup_eq_none_of_not_mem _ _ hnd.1
    · simp only [delEntry, if_neg ha] at h
      cases hrest : delEntry rest k with
      | none => rw [hrest] at h; cases h
      | some l =>
        rw [hrest] at h
        simp only [Option.map_some'] at h
        cases h
        have hb : (k == a) = false :=
          beq_eq_false_iff_ne.mpr (fun hk => ha hk.symm)
        simp [List.lookup, hb, ih l hnd.2 hrest]

theorem parseValueList_eq_map (xs : List Node) :
    parseValueList xs = xs.map parse_value := by
  induction xs with
  | nil => rfl
  | cons x rest ih => simp [parseValueList, ih]

/-- C1: the claim says stringify on a freshly parsed TOML text returns that
text verbatim. The code's stringify body is `json.dumps(self.parsed_content,
indent=4)` (and the module never imports json). On the TOML text "a = 1\n",
whose decoded tree is the mapping with "a" bound to 1, the body denotes the
4-space indented JSON text, which differs from the original TOML text, so the
round-trip the claim and the repository's own round-trip test require does
not hold. -/
theorem TomlParser.stringify_not_roundtrip :
    TomlParser.stringify (Node.table [("a", Node.int 1)])
        = "\x7b\n    \"a\": 1\n\x7d" ∧
      TomlParser.stringify (Node.table [("a", Node.int 1)]) ≠ "a = 1\n" := by
  exact ⟨rfl, by decide⟩

/-- C2: for a dotted key with all=false, when descent reaches an intermediate
node that is a scalar, get fails with ParsingError and the message names the
offending segment (the segment at which descent failed appears in the
message text). -/
theorem TomlParser.get_scalar_intermediate_parsing_error
    (tree m : Node) (key s : String) (pt : Bool) (pre rest : List String)
    (hdot : '.' ∈ key.data)
    (hsplit : split_on_dot key = pre ++ s :: rest)
    (hdesc : descend tree pre = .ok m)
    (hscalar : m.isScalar = true) :
    TomlParser.get tree key pt false =
      .error (.parsingError
        ("Cannot get " ++ s ++ " because " ++ s ++ " is not subscriptable.")) := by
  have h1 : getPath tree (split_on_dot key) =
      .error (.parsingError
        ("Cannot get " ++ s ++ " because " ++ s ++ " is not subscriptable.")) := by
    rw [hsplit, getPath_descend_prefix pre tree m _ hdesc,
      getPath_scalar_head m s rest hscalar]
  simp [TomlParser.get, hdot, h1]

/-- C2 witness: on the tree with "a" bound to the scalar 1 and the key "a.b",
get raises ParsingError naming the segment "b". -/
theorem TomlParser.get_scalar_intermediate_parsing_error_witness :
    TomlParser.get (Node.table [("a", Node.int 1)]) "a.b" false false =
      .error (.parsingError "Cannot get b because b is not subscriptable.") :=
  TomlParser.get_scalar_intermediate_parsing_error
    (Node.table [("a", Node.int 1)]) (Node.int 1) "a.b" "b" false ["a"] []
    (by decide) (by decide) rfl rfl

/-- C5: has is true exactly when the occurrence count of the search key is
positive, and in particular it is false for a non-existent nested key such as
"header_one.blah" on the template tree. -/
theorem TomlParser.has_iff_count_pos :
    (∀ (tree : Node) (k : String),
      TomlParser.has tree k = true ↔ 0 < get_occurrence_of_key tree k)
    ∧ TomlParser.has
        (.table [("header_one", .table [("number_key", .int 0)])])
        "header_one.blah" = false := by
  refine ⟨fun tree k => ?_, rfl⟩
  simp [TomlParser.has]

/-- C7: parse either returns the decoded tree of the underlying TOML library
unchanged, or fails with a ParsingError wrapping the library's decode error;
no other outcome exists. -/
theorem TomlParser.parse_ok_or_parsing_error
    (loaded : Except TomlDecodeError Node) :
    (∃ t, loaded = .ok t ∧ TomlParser.parse loaded = .ok t) ∨
    (∃ e, loaded = .error e ∧
      TomlParser.parse loaded = .error (.parsingError e.msg)) := by
  cases loaded with
  | ok t => exact Or.inl ⟨t, rfl, rfl⟩
  | error e => exact Or.inr ⟨e, rfl, rfl⟩

/-- C6: get routes exactly as specified: all=true returns the list of all
occurrences collected by nested_lookup; otherwise a key containing the
delimiter is descended one split_on_dot segment at a time; otherwise a direct
single-level lookup is performed, which fails when the key is absent. -/
theorem TomlParser.get_routing (tree : Node) (key : String) :
    (∀ pt, TomlParser.get tree key pt true =
      .ok (if pt then parse_value (.arr (nested_lookup key tree))
        else .arr (nested_lookup key tree)))
    ∧ ('.' ∈ key.data →
        TomlParser.get tree key false false = getPath tree (split_on_dot key))
    ∧ ('.' ∉ key.data →
        TomlParser.get tree key false false = tree.index key)
    ∧ (∀ kvs, '.' ∉ key.data → tree = .table kvs →
        kvs.lookup key = none →
        TomlParser.get tree key false false = .error (.keyError key)) := by
  refine ⟨fun pt => ?_, fun h => ?_, fun h => ?_, fun kvs h htree habs => ?_⟩
  · simp [TomlParser.get]
  · cases hg : getPath tree (split_on_dot key) with
    | ok v => simp [TomlParser.get, h, hg]
    | error e => simp [TomlParser.get, h, hg]
  · cases hg : tree.index key with
    | ok v => simp [TomlParser.get, h, hg]
    | error e => simp [TomlParser.get, h, hg]
  · subst htree
    have hg : Node.index (.table kvs) key = .error (.keyError key) := by
      simp [Node.index, habs]
    simp [TomlParser.get, h, hg]

/-- C6 witness: a direct single-level lookup of the absent key "b" fails with
a key-not-found error. -/
theorem TomlParser.get_routing_witness :
    TomlParser.get (Node.table [("a", Node.int 1)]) "b" false false
      = .error (.keyError "b") :=
  (TomlParser.get_routing (Node.table [("a", Node.int 1)]) "b").2.2.2
    [("a", Node.int 1)] (by decide) rfl rfl

theorem get_all_eq (tree : Node) (key : String) (pt : Bool) :
    TomlParser.get tree key pt true =
      .ok (if pt then parse_value (.arr (nested_lookup key tree))
        else .arr (nested_lookup key tree)) := by
  simp [TomlParser.get]

theorem get_not_all_eq (tree : Node) (key : String) (pt : Bool) :
    TomlParser.get tree key pt false =
      match (if '.' ∈ key.data then getPath tree (split_on_dot key)
        else tree.index key) with
      | .ok v => .ok (if pt then parse_value v else v)
      | .error e => .error e := by
  by_cases h : '.' ∈ key.data
  · cases hg : getPath tree (split_on_dot key) with
    | ok v => simp [TomlParser.get, h, hg]
    | error e => simp [TomlParser.get, h, hg]
  · cases hg : tree.index key with
    | ok v => simp [TomlParser.get, h, hg]
    | error e => simp [TomlParser.get, h, hg]

/-- C8: whenever lookup succeeds, get with parse_types=true returns the
coercion parse_value of the result that get with parse_types=false returns
unchanged; parse_value acts element-wise on sequences, and it coerces the
string "0" to the integer 0. -/
theorem TomlParser.get_parse_types_coerces (tree : Node) (key : String)
    (all : Bool) :
    (∀ r, TomlParser.get tree key false all = .ok r →
      TomlParser.get tree key true all = .ok (parse_value r))
    ∧ (∀ xs, parse_value (.arr xs) = .arr (xs.map parse_value))
    ∧ parse_value (.str "0") = .int 0 := by
  refine ⟨?_, fun xs => ?_, rfl⟩
  · intro r h
    cases all with
    | true =>
      rw [get_all_eq] at h
      rw [get_all_eq]
      simp only [Bool.false_eq_true, if_false, Except.ok.injEq] at h
      simp [← h]
    | false =>
      rw [get_not_all_eq] at h
      rw [get_not_all_eq]
      cases hg : (if '.' ∈ key.data then getPath tree (split_on_dot key)
          else tree.index key) with
      | ok v =>
        rw [hg] at h
        simp only [Bool.false_eq_true, if_false, Except.ok.injEq] at h
        simp [h]
      | error e =>
        rw [hg] at h
        simp at h
  · simp [parse_value, parseValueList_eq_map]

/-- C8 witness: on the tree binding "a" to the string "0", get with
parse_types=true returns the integer 0 while get with parse_types=false
returns the string. -/
theorem TomlParser.get_parse_types_coerces_witness :
    TomlParser.get (Node.table [("a", Node.str "0")]) "a" true false
      = .ok (.int 0) :=
  (TomlParser.get_parse_types_coerces
    (Node.table [("a", Node.str "0")]) "a" false).1 (Node.str "0") rfl

/-- C9: for a dotted key with all=false, when a segment is absent from a
mapping met during descent, get propagates a bare key-not-found error rather
than a ParsingError, because only the non-subscriptable TypeError case is
caught and converted. -/
theorem TomlParser.get_missing_segment_key_error
    (tree : Node) (kvs : List (String × Node)) (key s : String) (pt : Bool)
    (pre rest : List String)
    (hdot : '.' ∈ key.data)
    (hsplit : split_on_dot key = pre ++ s :: rest)
    (hdesc : descend tree pre = .ok (.table kvs))
    (habs : kvs.lookup s = none) :
    TomlParser.get tree key pt false = .error (.keyError s) := by
  have h1 : getPath tree (split_on_dot key) = .error (.keyError s) := by
    rw [hsplit, getPath_descend_prefix pre tree _ _ hdesc,
      getPath_table_missing_head kvs s rest habs]
  simp [TomlParser.get, h1, hdot]

/-- C9 witness: on the tree binding "a" to an empty mapping, getting "a.b"
fails with the bare KeyError for "b". -/
theorem TomlParser.get_missing_segment_key_error_witness :
    TomlParser.get (Node.table [("a", Node.table [])]) "a.b" false false
      = .error (.keyError "b") :=
  TomlParser.get_missing_segment_key_error
    (Node.table [("a", Node.table [])]) [] "a.b" "b" false ["a"] []
    (by decide) (by decide) rfl rfl

/-- C3: for a dotted key with all=false whose intermediate segments all
resolve to containers, set walks every segment except the last to reach the
parent mapping, assigns the value at the last segment (reading the path back
yields the assigned value), and returns the success flag True; if an
intermediate segment is absent (or otherwise fails to resolve), set fails and
creates nothing. -/
theorem TomlParser.set_dotted_spec (tree : Node) (kvs : List (String × Node))
    (key last : String) (init : List String) (v : Node)
    (hdot : '.' ∈ key.data)
    (hsplit : split_on_dot key = init ++ [last]) :
    (descend tree init = .ok (.table kvs) →
      ∃ u, TomlParser.set tree key v false = (.ok true, u) ∧
        descend u (init ++ [last]) = .ok v)
    ∧ (∀ e, descend tree init = .error e →
        TomlParser.set tree key v false = (.error e, tree)) := by
  constructor
  · intro h
    obtain ⟨u, hu, hd⟩ := setPath_append_ok v last init tree kvs h
    refine ⟨u, ?_, hd⟩
    rw [← hsplit] at hu
    simp [TomlParser.set, hdot, hu]
  · intro e h
    have h2 := setPath_append_err v last init tree e h
    rw [← hsplit] at h2
    simp [TomlParser.set, hdot, h2]

/-- C3 witness: setting "a.b" to 2 on the tree where "a" holds the mapping
with "b" bound to 1 succeeds with flag True, and the path then reads back 2. -/
theorem TomlParser.set_dotted_spec_witness :
    (TomlParser.set (Node.table [("a", Node.table [("b", Node.int 1)])])
        "a.b" (Node.int 2) false).fst = .ok true ∧
      descend (TomlParser.set (Node.table [("a", Node.table [("b", Node.int 1)])])
        "a.b" (Node.int 2) false).snd (["a"] ++ ["b"]) = .ok (Node.int 2) := by
  obtain ⟨u, hu, hd⟩ :=
    (TomlParser.set_dotted_spec
      (Node.table [("a", Node.table [("b", Node.int 1)])])
      [("b", Node.int 1)] "a.b" "b" ["a"] (Node.int 2)
      (by decide) (by decide)).1 rfl
  rw [hu]
  exact ⟨rfl, hd⟩

/-- C4 counterexample: on the tree where "a" is bound to the scalar 5, the
path "a.b" does not exist, yet delete fails with a TypeError — Python's
non-subscriptable error, which delete, unlike get, does not convert — and not
with the not-found KeyError the claim requires for every missing path. -/
theorem TomlParser.delete_scalar_intermediate_type_error :
    TomlParser.delete (Node.table [("a", Node.int 5)]) "a.b" false
        = (.error (.typeError "b"), Node.table [("a", Node.int 5)]) ∧
      (TomlParser.delete (Node.table [("a", Node.int 5)]) "a.b" false).fst
        ≠ .error (.keyError "b") := by
  refine ⟨rfl, fun h => ?_⟩
  exact PyErr.noConfusion (Except.error.inj h)

/-- C4 amended: with all=false, delete removes the entry addressed by the key
or dotted path when it exists and returns the success flag True; a key or
segment absent from a mapping met during descent makes delete fail with the
not-found KeyError; but descent through a non-subscriptable node makes delete
fail with a TypeError rather than a not-found error. -/
theorem TomlParser.delete_spec_amended
    (tree m : Node) (key s : String) (pre rest : List String)
    (kvs : List (String × Node)) :
    ('.' ∈ key.data → split_on_dot key = pre ++ s :: rest →
      descend tree pre = .ok m →
      ((m = .table kvs → rest = [] →
        (∀ kvs', delEntry kvs s = some kvs' →
          ∃ u, TomlParser.delete tree key false = (.ok true, u) ∧
            descend u pre = .ok (.table kvs') ∧
            ((kvs.map Prod.fst).Nodup → kvs'.lookup s = none)) ∧
        (delEntry kvs s = none →
          TomlParser.delete tree key false = (.error (.keyError s), tree)))
      ∧ (m = .table kvs → kvs.lookup s = none → rest ≠ [] →
          TomlParser.delete tree key false = (.error (.keyError s), tree))
      ∧ (m.isScalar = true →
          TomlParser.delete tree key false = (.error (.typeError s), tree))))
    ∧ ('.' ∉ key.data → tree = .table kvs →
        (∀ kvs', delEntry kvs key = some kvs' →
          TomlParser.delete tree key false = (.ok true, .table kvs') ∧
          ((kvs.map Prod.fst).Nodup → kvs'.lookup key = none)) ∧
        (delEntry kvs key = none →
          TomlParser.delete tree key false = (.error (.keyError key), tree))) := by
  constructor
  · intro hdot hsplit hdesc
    refine ⟨fun hm hrest => ?_, fun hm hlk hne => ?_, fun hsc => ?_⟩
    · subst hm
      subst hrest
      constructor
      · intro kvs' hdel
        obtain ⟨u, hu, hd⟩ := delPath_append_ok s pre tree kvs kvs' hdesc hdel
        refine ⟨u, ?_, hd, fun hnd => delEntry_lookup_none s kvs kvs' hnd hdel⟩
        rw [← hsplit] at hu
        simp [TomlParser.delete, hdot, hu]
      · intro hdel
        have hhead : delPath (.table kvs) [s] = .error (.keyError s) := by
          simp [delPath, Node.delAt, hdel]
        have h2 := delPath_comp_err pre tree (.table kvs) [s] (.keyError s)
          (by simp) hdesc hhead
        rw [← hsplit] at h2
        simp [TomlParser.delete, hdot, h2]
    · subst hm
      have hhead := delPath_table_missing_mid kvs s rest hlk hne
      have h2 := delPath_comp_err pre tree (.table kvs) (s :: rest)
        (.keyError s) (by simp) hdesc hhead
      rw [← hsplit] at h2
      simp [TomlParser.delete, hdot, h2]
    · have hhead := delPath_scalar_head m s rest hsc
      have h2 := delPath_comp_err pre tree m (s :: rest)
        (.typeError s) (by simp) hdesc hhead
      rw [← hsplit] at h2
      simp [TomlParser.delete, hdot, h2]
  · intro hdot htree
    subst htree
    constructor
    · intro kvs' hdel
      have hda : Node.delAt (.table kvs) key = .ok (.table kvs') := by
        simp [Node.delAt, hdel]
      exact ⟨by simp [TomlParser.delete, hdot, hda],
        fun hnd => delEntry_lookup_none key kvs kvs' hnd hdel⟩
    · intro hdel
      have hda : Node.delAt (.table kvs) key = .error (.keyError key) := by
        simp [Node.delAt, hdel]
      simp [TomlParser.delete, hdot, hda]

/-- C4 witness for the amended claim: deleting "a.b" on the tree where "a"
holds the mapping with "b" bound to 1 succeeds with flag True and removes the
entry. -/
theorem TomlParser.delete_spec_amended_witness :
    (TomlParser.delete (Node.table [("a", Node.table [("b", Node.int 1)])])
        "a.b" false).fst = .ok true ∧
      descend (TomlParser.delete
          (Node.table [("a", Node.table [("b", Node.int 1)])])
          "a.b" false).snd ["a"] = .ok (Node.table []) := by
  have h := ((TomlParser.delete_spec_amended
      (Node.table [("a", Node.table [("b", Node.int 1)])])
      (Node.table [("b", Node.int 1)]) "a.b" "b" ["a"] []
      [("b", Node.int 1)]).1 (by decide) (by decide) rfl).1 rfl rfl
  obtain ⟨u, hu, hd, -⟩ := h.1 [] rfl
  rw [hu]
  exact ⟨rfl, hd⟩

/-- C10: for a dotted key with all=false, set and delete mutate nothing
before the final segment, so whenever the call fails — for any raised error —
the post-state tree equals the tree before the call. -/
theorem TomlParser.set_delete_failure_atomic (tree : Node) (key : String)
    (v : Node) (hdot : '.' ∈ key.data) :
    (∀ e, (TomlParser.set tree key v false).fst = .error e →
      (TomlParser.set tree key v false).snd = tree)
    ∧ (∀ e, (TomlParser.delete tree key false).fst = .error e →
      (TomlParser.delete tree key false).snd = tree) := by
  constructor
  · intro e h
    cases hs : setPath tree (split_on_dot key) v with
    | ok t' => simp [TomlParser.set, hdot, hs] at h
    | error e' => simp [TomlParser.set, hdot, hs]
  · intro e h
    cases hs : delPath tree (split_on_dot key) with
    | ok t' => simp [TomlParser.delete, hdot, hs] at h
    | error e' => simp [TomlParser.delete, hdot, hs]

/-- C10 witness: on the empty mapping both set and delete of "a.b" fail at
the missing intermediate "a" and leave the tree unchanged. -/
theorem TomlParser.set_delete_failure_atomic_witness :
    (TomlParser.set (Node.table []) "a.b" (Node.int 0) false).snd
        = Node.table [] ∧
      (TomlParser.delete (Node.table []) "a.b" false).snd = Node.table [] := by
  have h := TomlParser.set_delete_failure_atomic (Node.table []) "a.b"
    (Node.int 0) (by decide)
  exact ⟨h.1 (PyErr.keyError "a") rfl, h.2 (PyErr.keyError "a") rfl⟩
